import Mathlib

/-!
Verification of `examples/hetero/hetero_link_pred.py`: a MovieLens link
regression script.  Tensors of floating-point scores are embedded as
`List ℚ`, integer rating labels as `List ℕ`.  Division follows exact
rational arithmetic; bins whose count is zero make the weight computation
undefined, which the embedding records with `Option`.
-/

namespace HeteroLinkPred

/-- `tensor.mean()`: the sum of the entries divided by their number
(0 for the empty tensor, where the script would produce NaN). -/
def mean (xs : List ℚ) : ℚ := xs.sum / xs.length

/-- `F.mse_loss(pred, target)` with default mean reduction: the mean of the
squared elementwise differences. -/
def mse_loss (pred target : List ℚ) : ℚ :=
  mean (List.zipWith (fun p t => (p - t) ^ 2) pred target)

/-- `weighted_mse_loss(pred, target, weight)` from the script:
`weight = 1. if weight is None else weight[target]`, then
`(weight * (pred - target).pow(2)).mean()`.  `weight[target]` is tensor
fancy indexing, gathering the per-label weight of each target entry. -/
def weighted_mse_loss (pred : List ℚ) (target : List ℕ)
    (weight : Option (List ℚ)) : ℚ :=
  let diffSq := List.zipWith (fun p (t : ℕ) => (p - (t : ℚ)) ^ 2) pred target
  match weight with
  | none => mean diffSq
  | some w => mean (List.zipWith (· * ·) (target.map fun t => w.getD t 0) diffSq)

/-- `pred.clamp(min=0, max=5)` applied to one entry. -/
def clamp05 (x : ℚ) : ℚ := min (max x 0) 5

/-- `torch.bincount(labels)`: entry `v` counts the occurrences of value `v`
among the labels; the length is one more than the largest label
(and 0 for an empty input). -/
def bincount (labels : List ℕ) : List ℕ :=
  match labels with
  | [] => []
  | _ => (List.range (labels.foldr max 0 + 1)).map fun v => labels.count v

/-- The largest bin count, `weight.max()` over the bincount tensor. -/
def maxCount (labels : List ℕ) : ℕ := (bincount labels).foldr max 0

/-- `weight = weight.max() / weight` at bin `i`: the exact quotient when the
bin count is nonzero, and `none` when the script divides by zero (a
zero-count bin, where floating point would yield +inf). -/
def weightAt (labels : List ℕ) (i : ℕ) : Option ℚ :=
  let c := (bincount labels).getD i 0
  if c = 0 then none else some ((maxCount labels : ℚ) / (c : ℚ))

/-- A zipWith over equally long lists is the map of the indexwise
combination over the index range. -/
theorem zipWith_eq_map_range {α β γ : Type} (f : α → β → γ) (da : α) (db : β) :
    ∀ (xs : List α) (ys : List β), xs.length = ys.length →
      List.zipWith f xs ys =
        (List.range xs.length).map fun i => f (xs.getD i da) (ys.getD i db)
  | [], [], _ => rfl
  | x :: xs, y :: ys, h => by
    have h' : xs.length = ys.length := by simpa using h
    simp only [List.zipWith_cons_cons, List.length_cons, List.range_succ_eq_map,
      List.map_cons, List.map_map]
    refine congrArg₂ _ rfl ?_
    rw [zipWith_eq_map_range f da db xs ys h']
    exact List.map_congr_left fun i _ => rfl

/-- Multiplying the gathered per-label weights into the squared differences
pointwise agrees with a single indexwise zipWith. -/
theorem gather_mul_zipWith (w : List ℚ) :
    ∀ (pred : List ℚ) (target : List ℕ),
      List.zipWith (· * ·) (target.map fun t => w.getD t 0)
          (List.zipWith (fun p (t : ℕ) => (p - (t : ℚ)) ^ 2) pred target) =
        List.zipWith (fun p (t : ℕ) => w.getD t 0 * (p - (t : ℚ)) ^ 2) pred target
  | [], ts => by cases ts <;> rfl
  | p :: ps, [] => rfl
  | p :: ps, t :: ts => by simpa using gather_mul_zipWith w ps ts

/-- Squared differences against a float-cast label list agree with the
squared differences computed with an in-place cast. -/
theorem zipWith_cast_right :
    ∀ (pred : List ℚ) (target : List ℕ),
      List.zipWith (fun p t => (p - t) ^ 2) pred (target.map fun t => (t : ℚ)) =
        List.zipWith (fun p (t : ℕ) => (p - (t : ℚ)) ^ 2) pred target
  | [], ts => by cases ts <;> rfl
  | p :: ps, [] => rfl
  | p :: ps, t :: ts => by simpa using zipWith_cast_right ps ts

/-- C1: `weighted_mse_loss` returns the mean over edges of
`weight[target] * (pred - target)^2`; with no weight vector every label
implicitly has weight 1 and the result is exactly the plain mean squared
error of `pred` against the float-cast target. -/
theorem weighted_mse_loss_spec (pred : List ℚ) (target : List ℕ)
    (w : List ℚ) (h : pred.length = target.length) :
    weighted_mse_loss pred target (some w) =
      ((List.range pred.length).map fun i =>
        w.getD (target.getD i 0) 0 * (pred.getD i 0 - (target.getD i 0 : ℚ)) ^ 2).sum
        / pred.length ∧
    weighted_mse_loss pred target none =
      mse_loss pred (target.map fun t => (t : ℚ)) := by
  constructor
  · have hz :
        List.zipWith (fun p (t : ℕ) => w.getD t 0 * (p - (t : ℚ)) ^ 2) pred target =
          (List.range pred.length).map fun i =>
            w.getD (target.getD i 0) 0 *
              (pred.getD i 0 - (target.getD i 0 : ℚ)) ^ 2 :=
      zipWith_eq_map_range _ 0 0 pred target h
    have hgather := gather_mul_zipWith w pred target
    have hlen :
        (List.zipWith (fun p (t : ℕ) => w.getD t 0 * (p - (t : ℚ)) ^ 2) pred target).length
          = pred.length := by
      simp [List.length_zipWith, h]
    simp only [weighted_mse_loss, mean, hgather, hz]
    rw [← hz, hlen]
  · simp only [weighted_mse_loss, mse_loss, zipWith_cast_right]

/-- Witness for C1 at `pred = [2, 4]`, `target = [1, 3]`, `w = [1, 2, 3, 4]`. -/
theorem weighted_mse_loss_spec_witness :
    weighted_mse_loss [2, 4] [1, 3] (some [1, 2, 3, 4]) =
      ((List.range 2).map fun i =>
        [(1 : ℚ), 2, 3, 4].getD ([1, 3].getD i 0) 0 *
          ([(2 : ℚ), 4].getD i 0 - ([1, 3].getD i 0 : ℚ)) ^ 2).sum / 2 ∧
    weighted_mse_loss [2, 4] [1, 3] none =
      mse_loss [2, 4] ([1, 3].map fun t => (t : ℚ)) := by
  have h := weighted_mse_loss_spec [2, 4] [1, 3] [1, 2, 3, 4] (by decide)
  simpa using h

/-- C5: every entry of a tensor clamped to [0, 5] lies in [0, 5]. -/
theorem clamp_bounds (pred : List ℚ) (x : ℚ)
    (hx : x ∈ pred.map clamp05) : 0 ≤ x ∧ x ≤ 5 := by
  rcases List.mem_map.mp hx with ⟨y, _, rfl⟩
  exact ⟨le_min (le_max_right y 0) (by norm_num), min_le_right _ 5⟩

/-- Witness for C5 at the one-element tensor `[7]`. -/
theorem clamp_bounds_witness : 0 ≤ clamp05 7 ∧ clamp05 7 ≤ 5 :=
  clamp_bounds [7] (clamp05 7) (by simp)

/-- Indexing a map over a range inside the range evaluates the function. -/
theorem getD_map_range {α : Type} (f : ℕ → α) (d : α) (n v : ℕ) (hv : v < n) :
    ((List.range n).map f).getD v d = f v := by
  have h1 : v < ((List.range n).map f).length := by simpa using hv
  rw [List.getD_eq_getElem?_getD, List.getElem?_eq_getElem h1]
  simp

/-- On a nonempty label list, `bincount` is the count of each value up to the
largest label. -/
theorem bincount_ne_nil (labels : List ℕ) (h : labels ≠ []) :
    bincount labels =
      (List.range (labels.foldr max 0 + 1)).map fun v => labels.count v := by
  cases labels with
  | nil => exact absurd rfl h
  | cons a l => rfl

/-- Every element of a list of naturals is bounded by its `foldr max 0`. -/
theorem le_foldr_max : ∀ (l : List ℕ), ∀ x ∈ l, x ≤ l.foldr max 0
  | [], x, hx => by cases hx
  | a :: l, x, hx => by
    rcases List.mem_cons.mp hx with rfl | hx
    · exact le_max_left _ _
    · exact le_trans (le_foldr_max l x hx) (le_max_right _ _)

/-- `weightAt` at a zero-count bin is undefined. -/
theorem weightAt_of_zero (labels : List ℕ) (i : ℕ)
    (h : (bincount labels).getD i 0 = 0) : weightAt labels i = none := by
  unfold weightAt
  rw [if_pos h]

/-- `weightAt` at a nonzero-count bin is the exact quotient of the maximum
count by the bin count. -/
theorem weightAt_of_ne_zero (labels : List ℕ) (i : ℕ)
    (h : (bincount labels).getD i 0 ≠ 0) :
    weightAt labels i =
      some ((maxCount labels : ℚ) / ((bincount labels).getD i 0 : ℚ)) := by
  unfold weightAt
  rw [if_neg h]

/-- C2: if some rating value `v` up to the largest observed label never
occurs in the training labels, the bincount has a zero bin at `v` inside the
tensor, and `weight.max() / weight` there is a division by zero (undefined in
the exact embedding). -/
theorem zero_bin_division_by_zero (labels : List ℕ) (v : ℕ)
    (hne : labels ≠ []) (hv : v ≤ labels.foldr max 0)
    (habsent : labels.count v = 0) :
    v < (bincount labels).length ∧ (bincount labels).getD v 1 = 0 ∧
      weightAt labels v = none := by
  have hb := bincount_ne_nil labels hne
  have hvlt : v < labels.foldr max 0 + 1 := Nat.lt_succ_of_le hv
  have hlen : (bincount labels).length = labels.foldr max 0 + 1 := by
    rw [hb]; simp
  have hget1 : (bincount labels).getD v 1 = 0 := by
    rw [hb, getD_map_range _ _ _ _ hvlt, habsent]
  have hget0 : (bincount labels).getD v 0 = 0 := by
    rw [hb, getD_map_range _ _ _ _ hvlt, habsent]
  exact ⟨by omega, hget1, weightAt_of_zero labels v hget0⟩

/-- Witness for C2: in `[0, 0, 2]` the rating 1 never occurs though 2 does,
so bin 1 is zero and its weight is undefined. -/
theorem zero_bin_division_by_zero_witness :
    1 < (bincount [0, 0, 2]).length ∧ (bincount [0, 0, 2]).getD 1 1 = 0 ∧
      weightAt [0, 0, 2] 1 = none :=
  zero_bin_division_by_zero [0, 0, 2] 1 (by decide) (by decide) (by decide)

/-- C3: at every bin with a nonzero count, the weight `max / count` is `1`
exactly at a most frequent bin (hence at least 1 there) and strictly greater
than 1 at every strictly less frequent bin; no bin count exceeds the
maximum.  Bins with count zero fall under the division-by-zero defect of C2
and carry no finite weight. -/
theorem weight_skew_spec (labels : List ℕ) (i : ℕ)
    (hi : i < (bincount labels).length)
    (hc : (bincount labels).getD i 0 ≠ 0) :
    (bincount labels).getD i 0 ≤ maxCount labels ∧
    ((bincount labels).getD i 0 = maxCount labels →
      weightAt labels i = some 1) ∧
    ((bincount labels).getD i 0 < maxCount labels →
      ∃ q, weightAt labels i = some q ∧ 1 < q) := by
  set c := (bincount labels).getD i 0 with hcdef
  have hmem : c ∈ bincount labels := by
    rw [hcdef, List.getD_eq_getElem _ _ hi]
    exact List.getElem_mem hi
  have hle : c ≤ maxCount labels := le_foldr_max _ _ hmem
  have hw := weightAt_of_ne_zero labels i (by rw [← hcdef]; exact hc)
  rw [← hcdef] at hw
  refine ⟨hle, ?_, ?_⟩
  · intro hmax
    have hc0 : (c : ℚ) ≠ 0 := by exact_mod_cast hc
    rw [hw, ← hmax, div_self hc0]
  · intro hlt
    refine ⟨(maxCount labels : ℚ) / (c : ℚ), hw, ?_⟩
    have hcpos : (0 : ℚ) < (c : ℚ) := by
      exact_mod_cast Nat.pos_of_ne_zero hc
    exact (one_lt_div hcpos).mpr (by exact_mod_cast hlt)

/-- Witness for C3 at `labels = [0, 0, 1]`: bin 0 is the mode with weight 1
and bin 1 is rarer with weight 2 greater than 1. -/
theorem weight_skew_spec_witness :
    (bincount [0, 0, 1]).getD 1 0 ≤ maxCount [0, 0, 1] ∧
    ((bincount [0, 0, 1]).getD 1 0 = maxCount [0, 0, 1] →
      weightAt [0, 0, 1] 1 = some 1) ∧
    ((bincount [0, 0, 1]).getD 1 0 < maxCount [0, 0, 1] →
      ∃ q, weightAt [0, 0, 1] 1 = some q ∧ 1 < q) :=
  weight_skew_spec [0, 0, 1] 1 (by decide) (by decide)

/-- Modelled from the spec: the number of validation edges requested by
`T.RandomLinkSplit(num_val=0.1, ...)` (the transform itself is repository
code not present under src/) — 10% of the labeled edges, rounded down. -/
def numVal (n : ℕ) : ℕ := n / 10

/-- Modelled from the spec: the number of test edges, 10% rounded down. -/
def numTest (n : ℕ) : ℕ := n / 10

/-- Modelled from the spec: the remaining edges train (about 80%). -/
def numTrain (n : ℕ) : ℕ := n - numVal n - numTest n

/-- Modelled from the spec: the training block of the shuffled labeled edge
positions of the ('user', 'rates', 'movie') relation. -/
def trainEdges (perm : List ℕ) : List ℕ := perm.take (numTrain perm.length)

/-- Modelled from the spec: the validation block of the shuffled edges. -/
def valEdges (perm : List ℕ) : List ℕ :=
  (perm.drop (numTrain perm.length)).take (numVal perm.length)

/-- Modelled from the spec: the test block of the shuffled edges. -/
def testEdges (perm : List ℕ) : List ℕ :=
  perm.drop (numTrain perm.length + numVal perm.length)

/-- C4: the train/val/test edge sets are pairwise disjoint, together they are
exactly the labeled edges, and their sizes are the requested 10%/10%/80%
fractions up to rounding: ⌊n/10⌋ validation and test edges each and the
remaining n - 2⌊n/10⌋ training edges. -/
theorem randomLinkSplit_partition (perm : List ℕ) (hnd : perm.Nodup) :
    List.Disjoint (trainEdges perm) (valEdges perm) ∧
    List.Disjoint (trainEdges perm) (testEdges perm) ∧
    List.Disjoint (valEdges perm) (testEdges perm) ∧
    trainEdges perm ++ valEdges perm ++ testEdges perm = perm ∧
    (valEdges perm).length = perm.length / 10 ∧
    (testEdges perm).length = perm.length / 10 ∧
    (trainEdges perm).length = perm.length - perm.length / 10 - perm.length / 10 := by
  have hdroptail : ∀ x ∈ valEdges perm, x ∈ perm.drop (numTrain perm.length) :=
    fun x hx => List.take_subset _ _ hx
  have hd1 : List.Disjoint (perm.take (numTrain perm.length))
      (perm.drop (numTrain perm.length)) :=
    List.disjoint_take_drop hnd le_rfl
  have hd2 : List.Disjoint (perm.take (numTrain perm.length))
      (perm.drop (numTrain perm.length + numVal perm.length)) :=
    List.disjoint_take_drop hnd (Nat.le_add_right _ _)
  have hdropnd : (perm.drop (numTrain perm.length)).Nodup :=
    (List.drop_sublist _ _).nodup hnd
  have hdd : perm.drop (numTrain perm.length + numVal perm.length) =
      (perm.drop (numTrain perm.length)).drop (numVal perm.length) := by
    rw [List.drop_drop]
  have hd3 : List.Disjoint (valEdges perm) (testEdges perm) := by
    unfold valEdges testEdges
    rw [hdd]
    exact List.disjoint_take_drop hdropnd le_rfl
  refine ⟨fun x hx hx2 => hd1 hx (hdroptail x hx2), hd2, hd3, ?_, ?_, ?_, ?_⟩
  · unfold trainEdges valEdges testEdges
    rw [List.append_assoc, hdd, List.take_append_drop, List.take_append_drop]
  · unfold valEdges numTrain numVal numTest
    simp only [List.length_take, List.length_drop]
    omega
  · unfold testEdges numTrain numVal numTest
    simp only [List.length_drop]
    omega
  · unfold trainEdges numTrain numVal numTest
    simp only [List.length_take]
    omega

/-- Witness for C4 on the shuffled edge positions of 12 labeled edges:
one validation edge, one test edge, ten training edges. -/
theorem randomLinkSplit_partition_witness :
    List.Disjoint (trainEdges [5, 0, 7, 2, 9, 4, 11, 6, 1, 8, 3, 10])
        (valEdges [5, 0, 7, 2, 9, 4, 11, 6, 1, 8, 3, 10]) ∧
    List.Disjoint (trainEdges [5, 0, 7, 2, 9, 4, 11, 6, 1, 8, 3, 10])
        (testEdges [5, 0, 7, 2, 9, 4, 11, 6, 1, 8, 3, 10]) ∧
    List.Disjoint (valEdges [5, 0, 7, 2, 9, 4, 11, 6, 1, 8, 3, 10])
        (testEdges [5, 0, 7, 2, 9, 4, 11, 6, 1, 8, 3, 10]) ∧
    trainEdges [5, 0, 7, 2, 9, 4, 11, 6, 1, 8, 3, 10] ++
        valEdges [5, 0, 7, 2, 9, 4, 11, 6, 1, 8, 3, 10] ++
        testEdges [5, 0, 7, 2, 9, 4, 11, 6, 1, 8, 3, 10] =
      [5, 0, 7, 2, 9, 4, 11, 6, 1, 8, 3, 10] ∧
    (valEdges [5, 0, 7, 2, 9, 4, 11, 6, 1, 8, 3, 10]).length = 12 / 10 ∧
    (testEdges [5, 0, 7, 2, 9, 4, 11, 6, 1, 8, 3, 10]).length = 12 / 10 ∧
    (trainEdges [5, 0, 7, 2, 9, 4, 11, 6, 1, 8, 3, 10]).length =
      12 - 12 / 10 - 12 / 10 :=
  randomLinkSplit_partition [5, 0, 7, 2, 9, 4, 11, 6, 1, 8, 3, 10] (by decide)

/-- One split ('train_data', 'val_data' or 'test_data') as the evaluation and
training code consume it: the integer rating labels of its
('user', 'rates', 'movie') edge label tensor.  Node features and
connectivity enter only through the abstract forward function. -/
structure SplitData where
  edgeLabel : List ℕ

/-- The mutable model state: the flattened parameter vector created by the
model's layers and mutated in place by the optimizer. -/
structure ModelState where
  params : List ℚ

/-- The observable outcome of one call to the script's `test(data)`. -/
structure EvalResult where
  gradAtForward : Bool
  value : ℚ
  paramsAfter : List ℚ

/-- `test(data)` from the script.  It is decorated `@torch.no_grad()`, so the
forward pass runs with gradient tracking disabled; the model's composite
forward pass is abstracted as `forward` over the current parameters and the
split; predictions are clamped to [0, 5] and compared by `F.mse_loss` with
the float-cast labels.  The script reports `mse.sqrt()`; the square root of
a rational is irrational in general, so the embedding carries the mean
squared error, the square of the reported RMSE, in `value`.  Parameters are
only read. -/
def test (forward : List ℚ → SplitData → List ℚ) (st : ModelState)
    (d : SplitData) : EvalResult :=
  let gradEnabled := false
  let pred := forward st.params d
  let predC := pred.map clamp05
  let target := d.edgeLabel.map fun t => (t : ℚ)
  { gradAtForward := gradEnabled
    value := mse_loss predC target
    paramsAfter := st.params }

/-- `train()` from the script: forward pass on the raw (unclamped)
predictions of the training split, `weighted_mse_loss` against the integer
labels, backward pass and one optimizer step.  The autograd/Adam machinery
is external library code abstracted as `optStep`, a function of the current
parameters and the loss. -/
def train (forward : List ℚ → SplitData → List ℚ)
    (optStep : List ℚ → ℚ → List ℚ) (st : ModelState) (td : SplitData)
    (weight : Option (List ℚ)) : ℚ × ModelState :=
  let pred := forward st.params td
  let target := td.edgeLabel
  let loss := weighted_mse_loss pred target weight
  (loss, { params := optStep st.params loss })

/-- One line printed per epoch: the training loss and the squared RMSE of
the three splits. -/
structure EpochRecord where
  epoch : ℕ
  loss : ℚ
  trainRmseSq : ℚ
  valRmseSq : ℚ
  testRmseSq : ℚ

/-- The body of one iteration of the epoch loop: one training step, then an
evaluation on each of the three splits. -/
def epochStep (forward : List ℚ → SplitData → List ℚ)
    (optStep : List ℚ → ℚ → List ℚ) (trainD valD testD : SplitData)
    (weight : Option (List ℚ)) (st : ModelState) (epoch : ℕ) :
    EpochRecord × ModelState :=
  let out := train forward optStep st trainD weight
  let st' := out.2
  { epoch := epoch
    loss := out.1
    trainRmseSq := (test forward st' trainD).value
    valRmseSq := (test forward st' valD).value
    testRmseSq := (test forward st' testD).value } |> fun r => (r, st')

/-- Runs the loop body once per listed epoch, in order, threading the model
state and collecting the printed records. -/
def runFrom (forward : List ℚ → SplitData → List ℚ)
    (optStep : List ℚ → ℚ → List ℚ) (trainD valD testD : SplitData)
    (weight : Option (List ℚ)) :
    ModelState → List ℕ → List EpochRecord × ModelState
  | st, [] => ([], st)
  | st, e :: es =>
    let out := epochStep forward optStep trainD valD testD weight st e
    let rest := runFrom forward optStep trainD valD testD weight out.2 es
    (out.1 :: rest.1, rest.2)

/-- `for epoch in range(1, 301)`: the fixed epoch loop of the script. -/
def runLoop (forward : List ℚ → SplitData → List ℚ)
    (optStep : List ℚ → ℚ → List ℚ) (trainD valD testD : SplitData)
    (weight : Option (List ℚ)) (st0 : ModelState) :
    List EpochRecord × ModelState :=
  runFrom forward optStep trainD valD testD weight st0
    ((List.range 300).map (· + 1))

/-- The records produced by `runFrom` carry exactly the listed epochs. -/
theorem runFrom_epochs (forward : List ℚ → SplitData → List ℚ)
    (optStep : List ℚ → ℚ → List ℚ) (trainD valD testD : SplitData)
    (weight : Option (List ℚ)) :
    ∀ (es : List ℕ) (st : ModelState),
      ((runFrom forward optStep trainD valD testD weight st es).1).map
          (fun r => r.epoch) = es
  | [], st => rfl
  | e :: es, st => by
    simp only [runFrom, List.map_cons, List.cons.injEq]
    exact ⟨rfl, runFrom_epochs forward optStep trainD valD testD weight es _⟩

/-- C6: for every split, `test` runs its forward pass with gradient tracking
disabled, returns the plain unweighted squared error (the square of the
reported RMSE) of the clamped predictions against the split's float-cast
labels — the same value `weighted_mse_loss` gives with no weight vector —
and leaves the model's parameters unchanged. -/
theorem test_frame_spec (forward : List ℚ → SplitData → List ℚ)
    (st : ModelState) (d : SplitData) :
    (test forward st d).gradAtForward = false ∧
    (test forward st d).paramsAfter = st.params ∧
    (test forward st d).value =
      weighted_mse_loss ((forward st.params d).map clamp05) d.edgeLabel none := by
  refine ⟨rfl, rfl, ?_⟩
  simp only [test, weighted_mse_loss, mse_loss, zipWith_cast_right]

/-- C7: the loop runs exactly 300 iterations and terminates (`runLoop` is a
total function), printing one record per iteration with the training loss
and the squared RMSE of all three splits, the epochs being exactly
1..300 in order — no early stopping; the final state holds only the threaded
parameters, with no checkpoint persisted along the way. -/
theorem epoch_loop_spec (forward : List ℚ → SplitData → List ℚ)
    (optStep : List ℚ → ℚ → List ℚ) (trainD valD testD : SplitData)
    (weight : Option (List ℚ)) (st0 : ModelState) :
    ((runLoop forward optStep trainD valD testD weight st0).1).length = 300 ∧
    ((runLoop forward optStep trainD valD testD weight st0).1).map
        (fun r => r.epoch) = (List.range 300).map (· + 1) := by
  have h := runFrom_epochs forward optStep trainD valD testD weight
    ((List.range 300).map (· + 1)) st0
  constructor
  · have := congrArg List.length h
    simpa using this
  · exact h

/-- The encoder as built: `SAGEConv((-1, -1), ·)` layers whose parameter
shapes are not yet known at construction time. -/
structure LazyEncoder where
  materialized : Bool

/-- `Model(hidden_channels=32)`: constructed with lazily inferred,
not yet materialized parameters. -/
def constructModel : LazyEncoder := { materialized := false }

/-- Modelled from the spec: the first encoder forward pass performs lazy
shape inference and materializes all parameters (the `SAGEConv` and
`to_hetero` implementations are repository code not present under src/). -/
def encoderForwardLazy (m : LazyEncoder) : LazyEncoder :=
  { m with materialized := true }

/-- What `torch.optim.Adam(model.parameters(), lr=0.01)` observes at
creation time. -/
structure OptimizerInit where
  paramsFinalAtCreation : Bool

/-- The script's setup sequence, in program order: construct the model, run
one encoder forward pass inside `with torch.no_grad():`, then create the
optimizer over the model's parameters.  The first component records the
gradient-tracking flag during the warm-up forward pass. -/
def scriptSetup : Bool × LazyEncoder × OptimizerInit :=
  let m := constructModel
  let gradDuringWarmup := false
  let m' := encoderForwardLazy m
  (gradDuringWarmup, m', { paramsFinalAtCreation := m'.materialized })

/-- C8: the warm-up encoder forward pass runs with gradient tracking
disabled, the model's parameters are not materialized by construction alone,
and by the time the optimizer is created the forward pass has materialized
them, so the parameter count is final when the optimizer references them. -/
theorem lazy_init_order :
    scriptSetup.1 = false ∧
    constructModel.materialized = false ∧
    (encoderForwardLazy constructModel).materialized = true ∧
    scriptSetup.2.2.paramsFinalAtCreation = true :=
  ⟨rfl, rfl, rfl, rfl⟩

/-- C10: the training step computes its loss on the raw unclamped forward
output while the evaluation step clamps, and there is a prediction tensor
with an entry outside [0, 5] on which the unweighted training loss differs
from the squared training RMSE of the same predictions. -/
theorem clamp_only_in_eval :
    (∀ (forward : List ℚ → SplitData → List ℚ)
        (optStep : List ℚ → ℚ → List ℚ) (st : ModelState) (td : SplitData)
        (weight : Option (List ℚ)),
      (train forward optStep st td weight).1 =
        weighted_mse_loss (forward st.params td) td.edgeLabel weight) ∧
    (∀ (forward : List ℚ → SplitData → List ℚ) (st : ModelState)
        (d : SplitData),
      (test forward st d).value =
        mse_loss ((forward st.params d).map clamp05)
          (d.edgeLabel.map fun t => (t : ℚ))) ∧
    ∃ (pred : List ℚ) (target : List ℕ), pred.length = target.length ∧
      (∃ x ∈ pred, 5 < x) ∧
      weighted_mse_loss pred target none ≠
        mse_loss (pred.map clamp05) (target.map fun t => (t : ℚ)) := by
  refine ⟨fun _ _ _ _ _ => rfl, fun _ _ _ => rfl, [6], [5], rfl,
    ⟨6, by norm_num⟩, ?_⟩
  have hc : clamp05 6 = 5 := by
    unfold clamp05
    rw [max_eq_left (by norm_num), min_eq_right (by norm_num)]
  have h1 : weighted_mse_loss [6] [5] none = 1 := by
    simp [weighted_mse_loss, mean]
    norm_num
  have h2 : mse_loss ([(6 : ℚ)].map clamp05)
      (([5] : List ℕ).map fun t => (t : ℚ)) = 0 := by
    simp [mse_loss, mean, hc]
  rw [h1, h2]
  norm_num

/-- Dot product of two vectors (torch matrix-vector product row action). -/
def dot (x w : List ℚ) : ℚ := (List.zipWith (· * ·) x w).sum

/-- `torch.nn.Linear` applied to one input row: one output per weight row,
the dot product with the input plus the bias. -/
def linear (W : List (List ℚ)) (b : List ℚ) (x : List ℚ) : List ℚ :=
  List.zipWith (fun wrow bi => dot x wrow + bi) W b

/-- `.relu()` on one entry. -/
def reluQ (x : ℚ) : ℚ := max x 0

/-- Tensor row indexing `z_dict['user'][row]`: gathers one latent row per
index. -/
def gather (m : List (List ℚ)) (idx : List ℕ) : List (List ℚ) :=
  idx.map fun i => m.getD i []

/-- The parameters of `EdgeDecoder`: `lin1 = Linear(2 * hidden_channels,
hidden_channels)` and `lin2 = Linear(hidden_channels, 1)`, the latter with a
single output row. -/
structure EdgeDecoderP where
  lin1W : List (List ℚ)
  lin1b : List ℚ
  lin2W : List (List ℚ)
  lin2b : List ℚ

/-- `EdgeDecoder.forward(z_dict, edge_label_index)` from the script:
`row, col = edge_label_index`; per candidate pair the user and movie latent
rows are gathered and concatenated (`torch.cat(..., dim=-1)`), `lin1` plus
`relu` and then `lin2` are applied rowwise, and `z.view(-1)` flattens the
n-by-1 result into a flat vector. -/
def edgeDecoderForward (D : EdgeDecoderP) (zUser zMovie : List (List ℚ))
    (row col : List ℕ) : List ℚ :=
  let zu := gather zUser row
  let zm := gather zMovie col
  let z := List.zipWith (· ++ ·) zu zm
  let z1 := z.map fun v => (linear D.lin1W D.lin1b v).map reluQ
  let z2 := z1.map fun v => linear D.lin2W D.lin2b v
  z2.flatten

/-- The per-pair score the spec describes: concatenate the two endpoints'
latent vectors, pass through the hidden linear layer and a non-linearity,
then the scalar-output linear layer. -/
def pairScore (D : EdgeDecoderP) (u v : List ℚ) : ℚ :=
  (linear D.lin2W D.lin2b ((linear D.lin1W D.lin1b (u ++ v)).map reluQ)).getD 0 0

/-- Indexing a mapped list inside its range evaluates the function at the
indexed element. -/
theorem getD_map_lt {α β : Type} (f : α → β) (l : List α) (da : α) (db : β)
    (i : ℕ) (h : i < l.length) : (l.map f).getD i db = f (l.getD i da) := by
  rw [List.getD_eq_getElem?_getD, List.getElem?_eq_getElem (by simpa using h),
    List.getD_eq_getElem?_getD, List.getElem?_eq_getElem h]
  simp

/-- Flattening a map that yields singleton rows is the map of the entries. -/
theorem flatten_map_eq {α : Type} (g : α → List ℚ) (f : α → ℚ) :
    ∀ (l : List α), (∀ x ∈ l, g x = [f x]) → (l.map g).flatten = l.map f
  | [], _ => rfl
  | a :: l, h => by
    simp only [List.map_cons, List.flatten_cons, h a (List.mem_cons_self a l)]
    rw [flatten_map_eq g f l fun x hx => h x (List.mem_cons_of_mem a hx)]
    rfl

/-- With a single-row `lin2`, the decoder's batched forward pass is the map
of the per-pair score over the index range. -/
theorem edgeDecoderForward_eq_map (D : EdgeDecoderP) (w0 : List ℚ) (b0 : ℚ)
    (h2W : D.lin2W = [w0]) (h2b : D.lin2b = [b0])
    (zUser zMovie : List (List ℚ)) (row col : List ℕ)
    (hlen : row.length = col.length) :
    edgeDecoderForward D zUser zMovie row col =
      (List.range row.length).map fun i =>
        pairScore D (zUser.getD (row.getD i 0) [])
          (zMovie.getD (col.getD i 0) []) := by
  have hgu : (gather zUser row).length = row.length := by simp [gather]
  have hgl : (gather zUser row).length = (gather zMovie col).length := by
    simp [gather, hlen]
  have hz := zipWith_eq_map_range (· ++ ·) ([] : List ℚ) ([] : List ℚ)
    (gather zUser row) (gather zMovie col) hgl
  simp only [edgeDecoderForward, List.map_map]
  rw [hz, hgu]
  simp only [List.map_map]
  refine flatten_map_eq _ _ _ fun i hi => ?_
  have hi' : i < row.length := List.mem_range.mp hi
  have hu : (gather zUser row).getD i [] = zUser.getD (row.getD i 0) [] :=
    getD_map_lt _ row 0 [] i hi'
  have hv : (gather zMovie col).getD i [] = zMovie.getD (col.getD i 0) [] :=
    getD_map_lt _ col 0 [] i (hlen ▸ hi')
  simp only [Function.comp, hu, hv]
  simp only [pairScore, h2W, h2b]
  rfl

/-- C9: the decoder returns a flat one-dimensional tensor with exactly one
predicted score per candidate pair: its length equals the common length of
the two endpoint index sequences, and entry i is the per-pair score —
concatenate the user latent row at `row[i]` with the movie latent row at
`col[i]`, apply the hidden linear layer with the non-linearity, then the
scalar-output linear layer. -/
theorem edgeDecoder_spec (D : EdgeDecoderP) (w0 : List ℚ) (b0 : ℚ)
    (h2W : D.lin2W = [w0]) (h2b : D.lin2b = [b0])
    (zUser zMovie : List (List ℚ)) (row col : List ℕ) (n : ℕ)
    (hrow : row.length = n) (hcol : col.length = n) :
    (edgeDecoderForward D zUser zMovie row col).length = n ∧
    ∀ i < n, (edgeDecoderForward D zUser zMovie row col).getD i 0 =
      pairScore D (zUser.getD (row.getD i 0) [])
        (zMovie.getD (col.getD i 0) []) := by
  have h := edgeDecoderForward_eq_map D w0 b0 h2W h2b zUser zMovie row col
    (hrow.trans hcol.symm)
  constructor
  · rw [h]
    simp [hrow]
  · intro i hi
    rw [h, hrow, getD_map_range _ _ _ _ hi]

/-- Witness for C9: a one-channel decoder on a single candidate pair. -/
theorem edgeDecoder_spec_witness :
    (edgeDecoderForward ⟨[[1, 1]], [0], [[2]], [1]⟩ [[3]] [[4]] [0] [0]).length
        = 1 ∧
    ∀ i < 1,
      (edgeDecoderForward ⟨[[1, 1]], [0], [[2]], [1]⟩ [[3]] [[4]] [0] [0]).getD
          i 0 =
        pairScore ⟨[[1, 1]], [0], [[2]], [1]⟩
          ([[(3 : ℚ)]].getD ([0].getD i 0) [])
          ([[(4 : ℚ)]].getD ([0].getD i 0) []) :=
  edgeDecoder_spec ⟨[[1, 1]], [0], [[2]], [1]⟩ [2] 1 rfl rfl
    [[3]] [[4]] [0] [0] 1 rfl rfl

end HeteroLinkPred
